import Mathlib

/-
Shallow embedding of the block_cache component of azure-storage-fuse
(src/unnamed/part_000, package block_cache) and proofs about the claims
of its specification.

Modelling conventions:
* Machine integers (uint64/int64 offsets, sizes, counts) are modelled as
  Nat; all quantities involved stay far below 2^63 in the scenarios the
  code supports, and no wrap-around arithmetic is exercised by the
  embedded paths (the only subtraction, offset - id*blockSize, is
  non-negative because id = offset / blockSize).
* The handle's string-keyed map uses keys "#" and decimal renderings of
  block indices.  Decimal numerals are pairwise distinct and never equal
  "#", so keys are embedded as the sum type HKey below.
* Pointer mutation of a Block shared between the map and a reader is
  embedded by writing the updated Block value back into the map at the
  same key.
* The Block implementation (AllocateBlock/ReUse/ReadyForReading/Unblock)
  and the BlockPool/ThreadPool are not under src/; they are modelled from
  the spec: a block carries the buffered tokens of its capacity-2
  readiness channel and its closed flag (spec section 4.1), the pool is a
  count of still-available blocks whose Get returns an armed block or
  nil on exhaustion (spec section 4.2), and ThreadPool.Schedule is a log
  of (priority, workItem) submissions (spec section 4.3).
* Receiving from the readiness channel takes the first buffered token;
  a receive on a closed empty channel yields 0 immediately (Go
  semantics); a receive on an open empty channel suspends the reader,
  embedded as the distinguished outcome blockedRecv.
-/

namespace BlockCacheProof

/-- Keys of the per-handle key/value map: the sentinel key written as the
string containing the number sign, and the decimal rendering of a block
index. -/
inductive HKey where
  | hash : HKey
  | idx : Nat → HKey
deriving DecidableEq

/-- A cache block: its block index within the file, its byte buffer, and
the state of its readiness channel (buffered tokens, closed flag).
The channel fields are modelled from the spec, section 4.1, because the
Block implementation is not under src/. -/
structure Block where
  id : Nat
  data : List Nat
  stateTokens : List Nat
  closed : Bool
deriving DecidableEq

/-- One workitem to be scheduled (the handle pointer of the Go struct is
implicit: every workItem belongs to the handle whose map stores it). -/
structure WorkItem where
  block : Block
deriving DecidableEq

/-- Values stored in the handle map: a uint64 offset (under the hash key)
or a workItem (under a block-index key). -/
inductive HVal where
  | off : Nat → HVal
  | item : WorkItem → HVal
deriving DecidableEq

/-- A file handle: its size and its key/value map. -/
structure Handle where
  size : Nat
  kv : List (HKey × HVal)
deriving DecidableEq

/-- The mutable state threaded through the embedded operations: the
handle, the count of blocks still obtainable from the pool, the log of
ThreadPool.Schedule submissions (priority flag and item), and the log of
blocks released back to the pool. -/
structure Sys where
  handle : Handle
  pool : Nat
  sched : List (Bool × WorkItem)
  released : List Block
deriving DecidableEq

/-- Static configuration: block size in bytes and prefetch count. -/
structure Config where
  blockSize : Nat
  prefetch : Nat
deriving DecidableEq

/-- Handle.SetValue: replace the binding of a key, or add it. -/
def setValue : List (HKey × HVal) → HKey → HVal → List (HKey × HVal)
  | [], k, v => [(k, v)]
  | e :: rest, k, v => if e.1 = k then (k, v) :: rest else e :: setValue rest k v

/-- Handle.GetValue. -/
def getValue : List (HKey × HVal) → HKey → Option HVal
  | [], _ => none
  | e :: rest, k => if e.1 = k then some e.2 else getValue rest k

/-- Handle.RemoveValue. -/
def removeValue (m : List (HKey × HVal)) (k : HKey) : List (HKey × HVal) :=
  m.filter (fun e => decide (e.1 ≠ k))

/-- The uint64 stored under the hash key, if any. -/
def hashVal (m : List (HKey × HVal)) : Option Nat :=
  match getValue m .hash with
  | some (.off v) => some v
  | _ => none

/-- Whether the map holds a workItem under the given key. -/
def hasItem (m : List (HKey × HVal)) (k : HKey) : Bool :=
  match getValue m k with
  | some (.item _) => true
  | _ => false

/-- The entries of the map other than the hash binding (the per-block
entries of the handle). -/
def blockEntries (m : List (HKey × HVal)) : List (HKey × HVal) :=
  m.filter (fun e => decide (e.1 ≠ HKey.hash))

/-- BlockPool.Get, modelled from the spec, section 4.2 (the pool sources
are not under src/): returns an armed block (fresh channel, no tokens,
not closed, stale zero buffer) while capacity remains, nil on
exhaustion. -/
def poolGet (bs : Nat) : Nat → Option (Block × Nat)
  | 0 => none
  | p + 1 => some ({ id := 0, data := List.replicate bs 0, stateTokens := [], closed := false }, p)

/-- The block handed out by lineupDownload for a given offset: the pool
block with its id assigned to offset / blockSize. -/
def mkPoolBlock (bs off : Nat) : Block :=
  { id := off / bs, data := List.replicate bs 0, stateTokens := [], closed := false }

/-- BlockCache.lineupDownload: get a block from the pool (nil means the
error return), set its id, store the workItem under the stringified id,
and submit the fetch with priority iff offset == 0. -/
def lineupDownload (cfg : Config) (s : Sys) (off : Nat) : Option Sys :=
  match poolGet cfg.blockSize s.pool with
  | none => none
  | some (b0, p1) =>
    let b : Block := { b0 with id := off / cfg.blockSize }
    let w : WorkItem := ⟨b⟩
    some { s with
      pool := p1,
      handle := { s.handle with kv := setValue s.handle.kv (.idx b.id) (.item w) },
      sched := s.sched ++ [(decide (off = 0), w)] }

/-- Result of BlockCache.OpenFile, carrying the side-effect state in both
cases; err corresponds to the Go return (nil, err) whose state changes
are not rolled back. -/
inductive OpenRes where
  | ok : Sys → OpenRes
  | err : Sys → OpenRes
deriving DecidableEq

/-- The side-effect state of an OpenFile result. -/
def OpenRes.st : OpenRes → Sys
  | .ok s => s
  | .err s => s

/-- The prefetch loop of BlockCache.OpenFile: while i < prefetch and
nextoffset < size, set the hash key to nextoffset, lineup the download
(returning the error on failure), and advance nextoffset by blockSize;
after the loop (either exit) set the hash key once more.  remaining is
prefetch - i. -/
def openFileLoop (cfg : Config) : Nat → Nat → Sys → OpenRes
  | 0, nextoffset, s =>
    .ok { s with handle := { s.handle with kv := setValue s.handle.kv .hash (.off nextoffset) } }
  | r + 1, nextoffset, s =>
    if nextoffset < s.handle.size then
      let s1 : Sys := { s with handle := { s.handle with kv := setValue s.handle.kv .hash (.off nextoffset) } }
      match lineupDownload cfg s1 nextoffset with
      | none => .err s1
      | some s2 => openFileLoop cfg r (nextoffset + cfg.blockSize) s2
    else
      .ok { s with handle := { s.handle with kv := setValue s.handle.kv .hash (.off nextoffset) } }

/-- The fresh state of OpenFile: a new handle of the given size with an
empty key/value map, and the given pool capacity. -/
def initSys (size pool : Nat) : Sys :=
  { handle := { size := size, kv := [] }, pool := pool, sched := [], released := [] }

/-- BlockCache.OpenFile after a successful GetAttr of a file of the given
size, on a fresh handle, with the given pool capacity. -/
def openFile (cfg : Config) (size pool : Nat) : OpenRes :=
  openFileLoop cfg cfg.prefetch 0 (initSys size pool)

/-- Outcomes of BlockCache.getBlock: io.EOF, the two error returns, a Go
type-assertion panic on an ill-typed map value, a reader suspended on an
open empty readiness channel, or the block. -/
inductive GetBlockRes where
  | eof : GetBlockRes
  | schedFail : GetBlockRes
  | notFound : GetBlockRes
  | badEntry : GetBlockRes
  | blockedRecv : GetBlockRes
  | ok : Block → GetBlockRes
deriving DecidableEq

/-- The branch of getBlock after a token t has been received: the first
reader (t = 1) schedules the next prefetch at the hash offset and bumps
the hash key by blockSize on success; the second reader (t = 2) unblocks
the block and evicts the workItem of index id - 3, releasing its block in
the background. -/
def afterToken (cfg : Config) (s : Sys) (index : Nat) (b : Block) (t : Nat) : Sys × GetBlockRes :=
  if t = 1 then
    match getValue s.handle.kv .hash with
    | some (.off lastoffset) =>
      if lastoffset < s.handle.size then
        match lineupDownload cfg s lastoffset with
        | none => (s, .ok b)
        | some s1 =>
          ({ s1 with handle := { s1.handle with
              kv := setValue s1.handle.kv .hash (.off (lastoffset + cfg.blockSize)) } }, .ok b)
      else (s, .ok b)
    | some (.item _) => (s, .badEntry)
    | none => (s, .ok b)
  else if t = 2 then
    let b2 : Block := { b with stateTokens := [], closed := true }
    let s1 : Sys := { s with handle := { s.handle with
        kv := setValue s.handle.kv (.idx index) (.item ⟨b2⟩) } }
    if 3 ≤ b.id then
      match getValue s1.handle.kv (.idx (b.id - 3)) with
      | some (.item dw) =>
        ({ s1 with handle := { s1.handle with kv := removeValue s1.handle.kv (.idx (b.id - 3)) },
                   released := s1.released ++ [dw.block] }, .ok b2)
      | some (.off _) => (s1, .badEntry)
      | none => (s1, .ok b2)
    else (s1, .ok b2)
  else (s, .ok b)

/-- The tail of getBlock once the map value of the block index has been
obtained: assert it is a workItem, receive a token from the block's
readiness channel (0 immediately if the channel is closed and empty,
suspension if it is open and empty), and dispatch on the token. -/
def getBlockStep2 (cfg : Config) (s : Sys) (index : Nat) (v : HVal) : Sys × GetBlockRes :=
  match v with
  | .off _ => (s, .badEntry)
  | .item w =>
    match w.block.stateTokens with
    | [] =>
      if w.block.closed then afterToken cfg s index w.block 0
      else (s, .blockedRecv)
    | t :: rest =>
      let b1 : Block := { w.block with stateTokens := rest }
      let s1 : Sys := { s with handle := { s.handle with
          kv := setValue s.handle.kv (.idx index) (.item ⟨b1⟩) } }
      afterToken cfg s1 index b1 t

/-- BlockCache.getBlock: EOF when the read offset reaches the handle
size; otherwise resolve the workItem of index readoffset / blockSize,
lining up the download if it is absent, then receive a token. -/
def getBlock (cfg : Config) (s : Sys) (readoffset : Nat) : Sys × GetBlockRes :=
  if s.handle.size ≤ readoffset then (s, .eof)
  else
    let index := readoffset / cfg.blockSize
    match getValue s.handle.kv (.idx index) with
    | some v => getBlockStep2 cfg s index v
    | none =>
      match lineupDownload cfg s readoffset with
      | none => (s, .schedFail)
      | some s1 =>
        match getValue s1.handle.kv (.idx index) with
        | some v => getBlockStep2 cfg s1 index v
        | none => (s1, .notFound)

/-- The two error kinds ReadInBuffer can return: io.EOF, or a wrapped
non-EOF failure (which the code returns with byte count 0). -/
inductive ReadErr where
  | eofE : ReadErr
  | getFail : ReadErr
deriving DecidableEq

/-- Result of BlockCache.ReadInBuffer: ret carries the returned byte
count, the bytes written into the caller's buffer, the error, the final
state and the final value of options.Offset; blockedR is a reader
suspended on a block's readiness channel; badCast is a Go type-assertion
panic; noFuel is exhaustion of the fuel bound (never reached with fuel
dataLen + 1 when every iteration copies at least one byte). -/
inductive ReadRes where
  | ret : Nat → List Nat → Option ReadErr → Sys → Nat → ReadRes
  | blockedR : Sys → ReadRes
  | badCast : Sys → ReadRes
  | noFuel : Sys → ReadRes
deriving DecidableEq

/-- The loop of BlockCache.ReadInBuffer.  Each iteration with
dataRead < dataLen gets the block covering offset; on io.EOF it returns
(dataRead, EOF); on any other error it returns (0, err); on success it
copies min(dataLen - dataRead, len(block.data) - readOffset) bytes from
block.data[readOffset:] with readOffset = offset - id*blockSize, adds the
copied count to dataRead, and then advances offset by the updated
dataRead (the cumulative count, exactly as the source does). -/
def readLoop (cfg : Config) : Nat → Sys → Nat → Nat → Nat → List Nat → ReadRes
  | 0, s, _, _, _, _ => .noFuel s
  | fuel + 1, s, offset, dataLen, dataRead, acc =>
    if dataRead < dataLen then
      match getBlock cfg s offset with
      | (s1, .eof) => .ret dataRead acc (some .eofE) s1 offset
      | (s1, .schedFail) => .ret 0 acc (some .getFail) s1 offset
      | (s1, .notFound) => .ret 0 acc (some .getFail) s1 offset
      | (s1, .badEntry) => .badCast s1
      | (s1, .blockedRecv) => .blockedR s1
      | (s1, .ok b) =>
        let readOffset := offset - b.id * cfg.blockSize
        let copied := min (dataLen - dataRead) (b.data.length - readOffset)
        let acc1 := acc ++ (b.data.drop readOffset).take copied
        let dataRead1 := dataRead + copied
        readLoop cfg fuel s1 (offset + dataRead1) dataLen dataRead1 acc1
    else .ret dataRead acc none s offset

/-- BlockCache.ReadInBuffer on a buffer of dataLen bytes starting at
offset. -/
def readInBuffer (cfg : Config) (s : Sys) (offset dataLen : Nat) : ReadRes :=
  readLoop cfg (dataLen + 1) s offset dataLen 0 []

/-- The downstream layer's view of the file over a byte range. -/
def downstreamRange (content : Nat → Nat) (off len : Nat) : List Nat :=
  (List.range len).map fun i => content (off + i)

/-- Observable effects of one run of the BlockCache.download worker
callback: the priority flags of the ThreadPool.Schedule calls it makes,
and whether it called ReadyForReading on the item's block. -/
structure DownloadOut where
  rescheduled : List Bool
  readyForReadingCalled : Bool
deriving DecidableEq

/-- BlockCache.download given the downstream ReadInBuffer outcome
(n bytes read, whether err was non-nil), statement for statement: an
error appends a normal-priority reschedule, a zero byte count appends a
normal-priority reschedule, and ReadyForReading is called at the end
unconditionally (the source has no early return). -/
def download (n : Nat) (isErr : Bool) : DownloadOut :=
  let out0 : DownloadOut := { rescheduled := [], readyForReadingCalled := false }
  let out1 : DownloadOut :=
    if isErr then { out0 with rescheduled := out0.rescheduled ++ [false] } else out0
  let out2 : DownloadOut :=
    if n = 0 then { out1 with rescheduled := out1.rescheduled ++ [false] } else out1
  { out2 with readyForReadingCalled := true }

/-- The blocks released by the CloseFile callback: for every entry whose
key differs from the hash key, the workItem's block (an off value under
such a key would make the Go type assertion panic; no path stores one). -/
def closeReleased (m : List (HKey × HVal)) : List Block :=
  m.filterMap fun e =>
    if e.1 = HKey.hash then none
    else
      match e.2 with
      | .item w => some w.block
      | .off _ => none

/-- BlockCache.CloseFile: iterate the handle's key/value bag with
CleanupWithCallback, releasing the block of every non-hash entry back to
the pool and emptying the map. -/
def closeFile (s : Sys) : Sys :=
  { s with handle := { s.handle with kv := [] },
           released := s.released ++ closeReleased s.handle.kv }

/-- Configuration used by the concrete scenarios: 4-byte blocks,
prefetch 2. -/
def cfgA : Config := { blockSize := 4, prefetch := 2 }

/-- A block of cfgA whose four data bytes are the downstream bytes of the
file fun i => i, already consumed by two readers (channel drained and
closed), for the given block index. -/
def doneBlock (i : Nat) : Block :=
  { id := i, data := [4 * i, 4 * i + 1, 4 * i + 2, 4 * i + 3], stateTokens := [], closed := true }

/-- Handle of the C1 scenario: a 16-byte file whose four blocks are all
present and fully consumed. -/
def hC1 : Handle :=
  { size := 16,
    kv := [(.idx 0, .item ⟨doneBlock 0⟩), (.idx 1, .item ⟨doneBlock 1⟩),
           (.idx 2, .item ⟨doneBlock 2⟩), (.idx 3, .item ⟨doneBlock 3⟩)] }

/-- Concrete state for the C1 scenario. -/
def stC1 : Sys :=
  { handle := hC1, pool := 0, sched := [], released := [] }

/-- Handle of the C4 witness scenario: a 32-byte file where block 0 is
fully consumed and block 3 is ready with its two tokens still buffered
minus the first (the next receive yields token 2). -/
def hC4 : Handle :=
  { size := 32,
    kv := [(.idx 0, .item ⟨doneBlock 0⟩),
           (.idx 3, .item ⟨{ id := 3, data := [12, 13, 14, 15], stateTokens := [2], closed := false }⟩)] }

/-- Concrete state for the C4 witness. -/
def stC4 : Sys :=
  { handle := hC4, pool := 0, sched := [], released := [] }

/-- Handle of the C7 witness scenario: the hash binding plus one cached
block under index 5. -/
def hC7 : Handle :=
  { size := 8, kv := [(.hash, .off 8), (.idx 5, .item ⟨doneBlock 5⟩)] }

/-- Concrete state for the C7 witness. -/
def stC7 : Sys :=
  { handle := hC7, pool := 1, sched := [], released := [] }

/-- Concrete state for the C6 witness: a 4-byte file whose single block
is cached and consumed. -/
def stC6 : Sys :=
  { handle := { size := 4, kv := [(.idx 0, .item ⟨doneBlock 0⟩)] },
    pool := 0, sched := [], released := [] }

/-- Handle of the C8 witness scenario: a 100-byte file with only block 0
cached. -/
def hC8 : Handle :=
  { size := 100,
    kv := [(.idx 0, .item ⟨{ id := 0, data := [7, 8, 9, 10], stateTokens := [], closed := true }⟩)] }

/-- Concrete state for the C8 witness: the pool is exhausted, so
resolving block 1 fails with a non-EOF scheduling error. -/
def stC8 : Sys :=
  { handle := hC8, pool := 0, sched := [], released := [] }

/-- Ceiling division: the number of blocks needed to cover a byte
quantity. -/
def ceilDiv (a b : Nat) : Nat := (a + b - 1) / b

/-- The offsets at which the OpenFile prefetch loop lines up downloads,
starting at off with r loop iterations left: the loop continues while
iterations remain and the offset is below the file size. -/
def schedOffsets (bs sz : Nat) : Nat → Nat → List Nat
  | 0, _ => []
  | r + 1, off => if off < sz then off :: schedOffsets bs sz r (off + bs) else []

/-- Concrete state for the C5 counterexample and witness: a 16-byte file
whose handle carries only the hash binding (value 8); block 0 is not
cached, so a read at offset 0 takes the hole-filling path of getBlock. -/
def stC5 : Sys :=
  { handle := { size := 16, kv := [(.hash, .off 8)] },
    pool := 3, sched := [], released := [] }

/-- Configuration for the C3 and C10 witnesses: 4-byte blocks,
prefetch 4. -/
def cfgB : Config := { blockSize := 4, prefetch := 4 }

/-- The hash binding either stays unchanged or advances by exactly one
blockSize between two map states. -/
def HashMono (cfg : Config) (m m' : List (HKey × HVal)) : Prop :=
  hashVal m' = hashVal m ∨
    ∃ l, hashVal m = some l ∧ hashVal m' = some (l + cfg.blockSize)

/-- Handle of the first-reader C5 witness scenario: block 0 of a 16-byte
file is ready with both readiness tokens still buffered (the next
receive yields token 1), and the hash binding is 4. -/
def hC5b : Handle :=
  { size := 16,
    kv := [(.idx 0, .item ⟨{ id := 0, data := [0, 1, 2, 3], stateTokens := [1, 2], closed := false }⟩),
           (.hash, .off 4)] }

/-- Concrete state for the first-reader conjunct of the C5 witness: the
pool has capacity, so the first reader of block 0 queues the block at
offset 4 and bumps the hash binding from 4 to 8. -/
def stC5b : Sys :=
  { handle := hC5b, pool := 2, sched := [], released := [] }

end BlockCacheProof

namespace BlockCacheProof

/-- Claim C9: a ReadInBuffer call with an empty output buffer returns
(0, nil) at once: no block is read, nothing is scheduled, the state is
untouched, and no EOF is reported even when the offset is at or beyond
the file size. -/
theorem claim_C9_empty_buffer_noop (cfg : Config) (s : Sys) (off : Nat) :
    readInBuffer cfg s off 0 = .ret 0 [] none s off := by
  simp [readInBuffer, readLoop]

/-- Claim C2 (code evaluation): on the failing input where the downstream
ReadInBuffer returns zero bytes with an error, the download callback
reschedules the item (twice, once per failed check) and nevertheless
calls ReadyForReading, because the source lacks a return after the
reschedules; ReadyForReading is called on every input, not only on a
successful nonzero read as the claim states. -/
theorem claim_C2_download_marks_ready_on_error :
    download 0 true = { rescheduled := [false, false], readyForReadingCalled := true } ∧
    (∀ n isErr, (download n isErr).readyForReadingCalled = true) := by
  refine ⟨by decide, fun n isErr => rfl⟩

/-- Claim C1 (code evaluation): reading 8 bytes at offset 2 of the fully
cached 16-byte file whose downstream content is fun i => i returns 8
bytes that differ from the downstream bytes of the range, and leaves the
offset at 18 instead of 2 + 8, because after the second iteration the
offset has been advanced by the cumulative dataRead rather than by the
bytes copied in that iteration. -/
theorem claim_C1_cumulative_offset_bug :
    readInBuffer cfgA stC1 2 8 = .ret 8 [2, 3, 4, 5, 6, 7, 10, 11] none stC1 18 ∧
    [2, 3, 4, 5, 6, 7, 10, 11] ≠ downstreamRange (fun i => i) 2 8 ∧
    (18 : Nat) ≠ 2 + 8 := by
  refine ⟨by decide, by decide, by decide⟩

/-- SetValue followed by GetValue at the same key yields the new value. -/
theorem getValue_setValue_self (m : List (HKey × HVal)) (k : HKey) (v : HVal) :
    getValue (setValue m k v) k = some v := by
  induction m with
  | nil => simp [setValue, getValue]
  | cons e rest ih =>
    by_cases h : e.1 = k
    · simp [setValue, h, getValue]
    · simp [setValue, h, getValue, ih]

/-- SetValue does not change the binding of any other key. -/
theorem getValue_setValue_ne (m : List (HKey × HVal)) (k k' : HKey) (v : HVal)
    (h : k' ≠ k) : getValue (setValue m k v) k' = getValue m k' := by
  have hk : ¬ (k = k') := fun he => h he.symm
  induction m with
  | nil => simp [setValue, getValue, hk]
  | cons e rest ih =>
    by_cases he : e.1 = k
    · have he' : ¬ (e.1 = k') := by rw [he]; exact hk
      simp [setValue, he, getValue, hk, he']
    · simp [setValue, he, getValue, ih]

/-- RemoveValue erases the binding of its key. -/
theorem getValue_removeValue_self (m : List (HKey × HVal)) (k : HKey) :
    getValue (removeValue m k) k = none := by
  induction m with
  | nil => simp [removeValue, getValue]
  | cons e rest ih =>
    by_cases h : e.1 = k
    · simpa [removeValue, List.filter, h] using ih
    · simpa [removeValue, List.filter, h, getValue] using ih

/-- A key GetValue resolves is a member of the map. -/
theorem getValue_mem (m : List (HKey × HVal)) (k : HKey) (v : HVal)
    (h : getValue m k = some v) : (k, v) ∈ m := by
  induction m with
  | nil => simp [getValue] at h
  | cons e rest ih =>
    obtain ⟨e1, e2⟩ := e
    by_cases he : e1 = k
    · subst he
      simp [getValue] at h
      subst h
      exact List.mem_cons_self _ _
    · refine List.mem_cons_of_mem _ (ih ?_)
      simpa [getValue, he] using h

/-- Every workItem stored under a non-hash key contributes its block to
the CloseFile release list. -/
theorem mem_closeReleased (m : List (HKey × HVal)) (k : HKey) (w : WorkItem)
    (hk : k ≠ HKey.hash) (hv : getValue m k = some (.item w)) :
    w.block ∈ closeReleased m := by
  have hmem : (k, HVal.item w) ∈ m := getValue_mem m k _ hv
  simp only [closeReleased, List.mem_filterMap]
  exact ⟨(k, .item w), hmem, by simp [hk]⟩

/-- Claim C7: CloseFile releases the block of every WorkItem stored on
the handle (every binding under a key other than the hash sentinel) back
to the pool. -/
theorem claim_C7_closeFile_releases_all (s : Sys) (k : HKey) (w : WorkItem)
    (hk : k ≠ HKey.hash) (hv : getValue s.handle.kv k = some (.item w)) :
    w.block ∈ (closeFile s).released := by
  have h := mem_closeReleased s.handle.kv k w hk hv
  simp only [closeFile, List.mem_append]
  exact Or.inr h

/-- Witness for C7: in the concrete state stC7 the block stored under
index 5 is in the release list of CloseFile. -/
theorem claim_C7_witness : doneBlock 5 ∈ (closeFile stC7).released :=
  claim_C7_closeFile_releases_all stC7 (.idx 5) ⟨doneBlock 5⟩ (by decide) (by decide)

/-- After the second-reader branch of getBlock (token 2) on a block of
index at least 3, the map holds no workItem for index id - 3. -/
theorem afterToken_t2_noItem (cfg : Config) (s : Sys) (index : Nat) (b : Block)
    (hid : 3 ≤ b.id) :
    hasItem (afterToken cfg s index b 2).1.handle.kv (.idx (b.id - 3)) = false := by
  simp only [afterToken, show ¬((2 : Nat) = 1) by decide, if_false, if_pos rfl, if_pos hid]
  cases h : getValue (setValue s.handle.kv (.idx index)
      (.item ⟨{ b with stateTokens := [], closed := true }⟩)) (.idx (b.id - 3)) with
  | none => simp [h, hasItem]
  | some v =>
    cases v with
    | off o => simp [h, hasItem]
    | item dw => simp [h, hasItem, getValue_removeValue_self]

/-- Claim C4: when getBlock hands the block at index k to its second
reader (the stored block's next buffered token is 2) and k is at least 3,
no WorkItem for index k - 3 remains in the handle's map afterwards. -/
theorem claim_C4_second_reader_evicts (cfg : Config) (s : Sys) (off : Nat) (w : WorkItem)
    (hfound : getValue s.handle.kv (HKey.idx (off / cfg.blockSize)) = some (.item w))
    (htok : w.block.stateTokens.head? = some 2)
    (hoff : off < s.handle.size)
    (hid : 3 ≤ w.block.id) :
    hasItem (getBlock cfg s off).1.handle.kv (HKey.idx (w.block.id - 3)) = false := by
  obtain ⟨rest, hrest⟩ : ∃ rest, w.block.stateTokens = 2 :: rest := by
    cases h : w.block.stateTokens with
    | nil => rw [h] at htok; simp at htok
    | cons t r =>
      rw [h] at htok
      simp only [List.head?_cons, Option.some.injEq] at htok
      exact ⟨r, by rw [htok]⟩
  have hsz : ¬ (s.handle.size ≤ off) := not_le.mpr hoff
  simp only [getBlock, hsz, if_false, hfound, getBlockStep2, hrest]
  exact afterToken_t2_noItem cfg _ _ _ hid

/-- Witness for C4: in the concrete state stC4 the second reader of
block 3 leaves no workItem for index 0 in the map. -/
theorem claim_C4_witness : hasItem (getBlock cfgA stC4 12).1.handle.kv (HKey.idx 0) = false :=
  claim_C4_second_reader_evicts cfgA stC4 12
    ⟨{ id := 3, data := [12, 13, 14, 15], stateTokens := [2], closed := false }⟩
    (by decide) (by decide) (by decide) (by decide)

/-- The token dispatch of getBlock never produces the EOF outcome. -/
theorem afterToken_snd_ne_eof (cfg : Config) (s : Sys) (index : Nat) (b : Block) (t : Nat) :
    (afterToken cfg s index b t).2 ≠ GetBlockRes.eof := by
  by_cases h1 : t = 1
  · subst h1
    simp only [afterToken, if_pos rfl]
    cases hv : getValue s.handle.kv HKey.hash with
    | none => simp
    | some v =>
      cases v with
      | off l =>
        by_cases h2 : l < s.handle.size
        · simp only [if_pos h2]
          cases hl : lineupDownload cfg s l with
          | none => simp
          | some s2 => simp
        · simp only [if_neg h2]
          simp
      | item w => simp
  · by_cases h2 : t = 2
    · subst h2
      simp only [afterToken, if_neg h1, if_pos rfl]
      by_cases h3 : 3 ≤ b.id
      · simp only [if_pos h3]
        cases hv : getValue (setValue s.handle.kv (HKey.idx index)
            (HVal.item ⟨{ b with stateTokens := [], closed := true }⟩)) (HKey.idx (b.id - 3)) with
        | none => simp
        | some v =>
          cases v with
          | off l => simp
          | item dw => simp
      · simp only [if_neg h3]
        simp
    · simp only [afterToken, if_neg h1, if_neg h2]
      simp

/-- The post-lookup part of getBlock never produces the EOF outcome. -/
theorem getBlockStep2_snd_ne_eof (cfg : Config) (s : Sys) (index : Nat) (v : HVal) :
    (getBlockStep2 cfg s index v).2 ≠ GetBlockRes.eof := by
  rcases v with o | w
  · simp [getBlockStep2]
  · obtain ⟨⟨bid, bdata, btok, bclosed⟩⟩ := w
    cases btok with
    | nil =>
      cases bclosed with
      | true => exact afterToken_snd_ne_eof cfg s index ⟨bid, bdata, [], true⟩ 0
      | false => simp [getBlockStep2]
    | cons t rest => exact afterToken_snd_ne_eof cfg _ index ⟨bid, bdata, rest, bclosed⟩ t

/-- getBlock returns EOF exactly in its guard branch: the state is
untouched and the read offset is at or past the handle size. -/
theorem getBlock_eof_inv (cfg : Config) (s : Sys) (off : Nat) (s1 : Sys)
    (h : getBlock cfg s off = (s1, GetBlockRes.eof)) : s1 = s ∧ s.handle.size ≤ off := by
  by_cases hsz : s.handle.size ≤ off
  · refine ⟨?_, hsz⟩
    simp only [getBlock, if_pos hsz] at h
    exact (congrArg Prod.fst h).symm
  · exfalso
    simp only [getBlock, hsz, if_false] at h
    cases hv : getValue s.handle.kv (HKey.idx (off / cfg.blockSize)) with
    | some v =>
      simp only [hv] at h
      exact getBlockStep2_snd_ne_eof cfg s _ v (by rw [h])
    | none =>
      simp only [hv] at h
      cases hl : lineupDownload cfg s off with
      | none =>
        simp only [hl] at h
        simp at h
      | some s2 =>
        simp only [hl] at h
        cases hv2 : getValue s2.handle.kv (HKey.idx (off / cfg.blockSize)) with
        | some v2 =>
          simp only [hv2] at h
          exact getBlockStep2_snd_ne_eof cfg s2 _ v2 (by rw [h])
        | none =>
          simp only [hv2] at h
          simp at h

/-- Any run of the ReadInBuffer loop that returns the wrapped non-EOF
error reports a byte count of 0, whatever was copied before. -/
theorem readLoop_getFail_zero (cfg : Config) :
    ∀ fuel s off len dr acc n acc' s' off',
      readLoop cfg fuel s off len dr acc = .ret n acc' (some .getFail) s' off' → n = 0 := by
  intro fuel
  induction fuel with
  | zero =>
    intro s off len dr acc n acc' s' off' h
    simp [readLoop] at h
  | succ f ih =>
    intro s off len dr acc n acc' s' off' h
    rw [readLoop] at h
    by_cases hlt : dr < len
    · rw [if_pos hlt] at h
      rcases hg : getBlock cfg s off with ⟨s1, r⟩
      rw [hg] at h
      cases r with
      | eof => simp at h
      | schedFail => simp at h; omega
      | notFound => simp at h; omega
      | badEntry => simp at h
      | blockedRecv => simp at h
      | ok b => exact ih _ _ _ _ _ _ _ _ _ h
    · rw [if_neg hlt] at h
      simp at h

/-- Any run of the ReadInBuffer loop that returns io.EOF returns the byte
count already accumulated (equal to the bytes written out) and does so at
a final offset at or past the handle size. -/
theorem readLoop_eofE_ret (cfg : Config) :
    ∀ fuel s off len dr acc n acc' s' off',
      readLoop cfg fuel s off len dr acc = .ret n acc' (some .eofE) s' off' →
      dr = acc.length → n = acc'.length ∧ s'.handle.size ≤ off' := by
  intro fuel
  induction fuel with
  | zero =>
    intro s off len dr acc n acc' s' off' h hdr
    simp [readLoop] at h
  | succ f ih =>
    intro s off len dr acc n acc' s' off' h hdr
    rw [readLoop] at h
    by_cases hlt : dr < len
    · rw [if_pos hlt] at h
      rcases hg : getBlock cfg s off with ⟨s1, r⟩
      rw [hg] at h
      cases r with
      | eof =>
        obtain ⟨hs1, hsz⟩ := getBlock_eof_inv cfg s off s1 hg
        injection h with h1 h2 h3 h4 h5
        subst h1; subst h2; subst h4; subst h5
        subst hs1
        exact ⟨hdr, hsz⟩
      | schedFail => simp at h
      | notFound => simp at h
      | badEntry => simp at h
      | blockedRecv => simp at h
      | ok b =>
        refine ih _ _ _ _ _ _ _ _ _ h ?_
        simp only [List.length_append, List.length_take, List.length_drop]
        omega
    · rw [if_neg hlt] at h
      simp at h

/-- Claim C6: ReadInBuffer returns the EOF indication exactly when the
reader's offset reaches or exceeds the handle's file size, and then
returns the bytes already read in that call together with it.  Forward
direction: every EOF return carries a byte count equal to the bytes
written so far and a final offset at or past the size.  Backward
direction: whenever an iteration of the loop starts with an unfilled
buffer and an offset at or past the size, it returns the accumulated
bytes with EOF at once (in particular a whole call starting there returns
(0, EOF)). -/
theorem claim_C6_eof_iff :
    (∀ cfg s off len n acc s' off',
      readInBuffer cfg s off len = .ret n acc (some .eofE) s' off' →
      n = acc.length ∧ s'.handle.size ≤ off') ∧
    (∀ cfg fuel s off len dr acc, dr < len → s.handle.size ≤ off →
      readLoop cfg (fuel + 1) s off len dr acc = .ret dr acc (some .eofE) s off) := by
  constructor
  · intro cfg s off len n acc s' off' h
    exact readLoop_eofE_ret cfg _ _ _ _ _ _ _ _ _ _ h rfl
  · intro cfg fuel s off len dr acc hlt hsz
    rw [readLoop, if_pos hlt]
    have hg : getBlock cfg s off = (s, .eof) := by
      unfold getBlock
      rw [if_pos hsz]
    rw [hg]

/-- Witness for C6: both directions applied at concrete inputs: the run
on stC6 that copies 4 bytes and then hits EOF at offset 4 = size, and a
loop iteration entered at offset 7 past the 4-byte size. -/
theorem claim_C6_witness :
    ((4 : Nat) = [0, 1, 2, 3].length ∧ stC6.handle.size ≤ 4) ∧
    readLoop cfgA 1 stC6 7 3 0 [] = .ret 0 [] (some .eofE) stC6 7 :=
  ⟨claim_C6_eof_iff.1 cfgA stC6 0 10 4 [0, 1, 2, 3] stC6 4 (by decide),
   claim_C6_eof_iff.2 cfgA 0 stC6 7 3 0 [] (by decide) (by decide)⟩

/-- Claim C8: a ReadInBuffer call in which getBlock fails with a non-EOF
error returns byte count 0 together with the error, discarding the count
of bytes already copied in earlier iterations. -/
theorem claim_C8_error_discards_count (cfg : Config) (s : Sys) (off len : Nat)
    (n : Nat) (acc : List Nat) (s' : Sys) (off' : Nat)
    (h : readInBuffer cfg s off len = .ret n acc (some .getFail) s' off') : n = 0 :=
  readLoop_getFail_zero cfg _ _ _ _ _ _ _ _ _ _ h

/-- Witness for C8: on stC8 the first iteration copies the 4 bytes of
block 0 and the second iteration fails to schedule block 1; the call
returns count 0 even though 4 bytes were already written out. -/
theorem claim_C8_witness :
    readInBuffer cfgA stC8 0 6 = .ret 0 [7, 8, 9, 10] (some .getFail) stC8 4 ∧ (0 : Nat) = 0 :=
  ⟨by decide, claim_C8_error_discards_count cfgA stC8 0 6 0 [7, 8, 9, 10] stC8 4 (by decide)⟩

/-- A successful lineupDownload consumed one pool block, stored the item
under the block index key and appended one schedule entry whose priority
flag is set exactly for offset 0. -/
theorem lineupDownload_some (cfg : Config) (s : Sys) (off : Nat) (s2 : Sys)
    (h : lineupDownload cfg s off = some s2) :
    ∃ p, s.pool = p + 1 ∧
      s2 = { s with
        pool := p,
        handle := { s.handle with kv := setValue s.handle.kv (.idx (off / cfg.blockSize)) (.item ⟨mkPoolBlock cfg.blockSize off⟩) },
        sched := s.sched ++ [(decide (off = 0), ⟨mkPoolBlock cfg.blockSize off⟩)] } := by
  cases hp : s.pool with
  | zero => simp [lineupDownload, poolGet, hp] at h
  | succ p =>
    refine ⟨p, rfl, ?_⟩
    simp only [lineupDownload, poolGet, hp] at h
    simp only [Option.some.injEq] at h
    exact h.symm

/-- A failed lineupDownload means the pool was exhausted. -/
theorem lineupDownload_none (cfg : Config) (s : Sys) (off : Nat)
    (h : lineupDownload cfg s off = none) : s.pool = 0 := by
  cases hp : s.pool with
  | zero => rfl
  | succ p => simp [lineupDownload, poolGet, hp] at h

/-- The schedule log appended by a completed OpenFile prefetch loop is
exactly the offsets of schedOffsets, each tagged with the priority flag
of lineupDownload (set iff the offset is 0) and its pool block. -/
theorem openFileLoop_ok_sched (cfg : Config) (sz : Nat) :
    ∀ r off s s', s.handle.size = sz → openFileLoop cfg r off s = .ok s' →
      s'.sched = s.sched ++ (schedOffsets cfg.blockSize sz r off).map
        (fun o => (decide (o = 0), (⟨mkPoolBlock cfg.blockSize o⟩ : WorkItem))) := by
  intro r
  induction r with
  | zero =>
    intro off s s' hsz h
    simp only [openFileLoop, OpenRes.ok.injEq] at h
    subst h
    simp [schedOffsets]
  | succ r ih =>
    intro off s s' hsz h
    simp only [openFileLoop] at h
    by_cases hoff : off < s.handle.size
    · rw [if_pos hoff] at h
      rw [hsz] at hoff
      cases hl : lineupDownload cfg
          { s with handle := { s.handle with kv := setValue s.handle.kv .hash (.off off) } } off with
      | none => simp [hl] at h
      | some s2 =>
        simp only [hl] at h
        obtain ⟨p, hp, hs2⟩ := lineupDownload_some cfg _ off s2 hl
        have hsz2 : s2.handle.size = sz := by rw [hs2]; exact hsz
        have hrec := ih (off + cfg.blockSize) s2 s' hsz2 h
        rw [hrec, hs2]
        simp only [schedOffsets, if_pos hoff, List.map_cons]
        simp [List.append_assoc]
    · rw [if_neg hoff] at h
      rw [hsz] at hoff
      simp only [OpenRes.ok.injEq] at h
      subst h
      simp [schedOffsets, hoff]

/-- One step of the block count of ceiling division: covering d more
bytes takes one more block than covering d - blockSize. -/
theorem ceilDiv_pos_step (bs d : Nat) (hbs : 0 < bs) (hd : 0 < d) :
    ceilDiv d bs = ceilDiv (d - bs) bs + 1 := by
  unfold ceilDiv
  rcases le_or_lt d bs with hle | hlt
  · have h1 : d + bs - 1 = (d - 1) + bs := by omega
    rw [h1, Nat.add_div_right _ hbs]
    have h2 : (d - 1) / bs = 0 := Nat.div_eq_of_lt (by omega)
    have h3 : d - bs = 0 := by omega
    rw [h2, h3]
    have h4 : (0 + bs - 1) / bs = 0 := Nat.div_eq_of_lt (by omega)
    rw [h4]
  · have h1 : d + bs - 1 = (d - 1) + bs := by omega
    have h2 : d - bs + bs - 1 = (d - bs - 1) + bs := by omega
    rw [h1, h2, Nat.add_div_right _ hbs, Nat.add_div_right _ hbs]
    have h3 : d - 1 = (d - bs - 1) + bs := by omega
    rw [h3, Nat.add_div_right _ hbs]

/-- The prefetch-loop offsets form an arithmetic progression of length
min(remaining iterations, blocks needed for the bytes left). -/
theorem schedOffsets_eq (bs sz : Nat) (hbs : 0 < bs) :
    ∀ r off, schedOffsets bs sz r off =
      (List.range (min r (ceilDiv (sz - off) bs))).map (fun i => off + i * bs) := by
  intro r
  induction r with
  | zero => intro off; simp [schedOffsets]
  | succ r ih =>
    intro off
    simp only [schedOffsets]
    by_cases hoff : off < sz
    · rw [if_pos hoff, ih (off + bs)]
      have hd : 0 < sz - off := by omega
      have hstep : ceilDiv (sz - off) bs = ceilDiv (sz - off - bs) bs + 1 :=
        ceilDiv_pos_step bs (sz - off) hbs hd
      have hsub : sz - (off + bs) = sz - off - bs := by omega
      rw [hsub, hstep, Nat.succ_min_succ, List.range_succ_eq_map]
      simp only [List.map_cons, List.map_map, Nat.zero_mul, Nat.add_zero]
      refine congrArg (List.cons off) ?_
      refine List.map_congr_left ?_
      intro i hi
      simp [Function.comp, Nat.succ_eq_add_one]
      ring
    · rw [if_neg hoff]
      have h0 : sz - off = 0 := by omega
      rw [h0]
      have h1 : ceilDiv 0 bs = 0 := Nat.div_eq_of_lt (by omega)
      rw [h1]
      simp

/-- Claim C3: for a file of positive size opened successfully, OpenFile
schedules exactly min(prefetch, ceil(size / blockSize)) block fetches,
and exactly the fetch of offset 0 carries the priority flag while all
others are normal. -/
theorem claim_C3_openFile_prefetch_schedule (cfg : Config) (sz pool : Nat) (s' : Sys)
    (hbs : 0 < cfg.blockSize) (hsz : 0 < sz) (h : openFile cfg sz pool = .ok s') :
    s'.sched.length = min cfg.prefetch (ceilDiv sz cfg.blockSize) ∧
    s'.sched.map Prod.fst =
      (List.range (min cfg.prefetch (ceilDiv sz cfg.blockSize))).map (fun i => decide (i = 0)) := by
  have hs := openFileLoop_ok_sched cfg sz cfg.prefetch 0 _ s' rfl h
  rw [schedOffsets_eq cfg.blockSize sz hbs] at hs
  simp only [initSys, Nat.sub_zero, List.nil_append, List.map_map] at hs
  rw [hs]
  constructor
  · simp
  · simp only [List.map_map]
    refine List.map_congr_left ?_
    intro i hi
    simp only [Function.comp_apply, Nat.zero_add]
    have : i * cfg.blockSize = 0 ↔ i = 0 := by
      constructor
      · intro hz
        rcases Nat.mul_eq_zero.mp hz with h' | h'
        · exact h'
        · omega
      · intro hz; rw [hz]; ring
    simp [this]

/-- Witness for C3: opening a 10-byte file with 4-byte blocks and
prefetch 4 schedules exactly 3 fetches, the first priority, the rest
normal. -/
theorem claim_C3_witness :
    (OpenRes.st (openFile cfgB 10 10)).sched.length = min cfgB.prefetch (ceilDiv 10 cfgB.blockSize) ∧
    (OpenRes.st (openFile cfgB 10 10)).sched.map Prod.fst =
      (List.range (min cfgB.prefetch (ceilDiv 10 cfgB.blockSize))).map (fun i => decide (i = 0)) :=
  claim_C3_openFile_prefetch_schedule cfgB 10 10 (OpenRes.st (openFile cfgB 10 10))
    (by decide) (by decide) (by decide)

/-- The OpenFile prefetch loop never releases a block, whether it
succeeds or fails. -/
theorem openFileLoop_released (cfg : Config) :
    ∀ r off s, (openFileLoop cfg r off s).st.released = s.released := by
  intro r
  induction r with
  | zero => intro off s; simp [openFileLoop, OpenRes.st]
  | succ r ih =>
    intro off s
    simp only [openFileLoop]
    by_cases hoff : off < s.handle.size
    · rw [if_pos hoff]
      cases hl : lineupDownload cfg
          { s with handle := { s.handle with kv := setValue s.handle.kv .hash (.off off) } } off with
      | none => simp [OpenRes.st]
      | some s2 =>
        simp only [hl]
        rw [ih (off + cfg.blockSize) s2]
        obtain ⟨p, hp, hs2⟩ := lineupDownload_some cfg _ off s2 hl
        rw [hs2]
    · rw [if_neg hoff]
      simp [OpenRes.st]

/-- When the OpenFile prefetch loop fails, the pool had been exhausted:
the error state has pool 0. -/
theorem openFileLoop_err_pool (cfg : Config) :
    ∀ r off s s', openFileLoop cfg r off s = .err s' → s'.pool = 0 := by
  intro r
  induction r with
  | zero =>
    intro off s s' h
    simp [openFileLoop] at h
  | succ r ih =>
    intro off s s' h
    simp only [openFileLoop] at h
    by_cases hoff : off < s.handle.size
    · rw [if_pos hoff] at h
      cases hl : lineupDownload cfg
          { s with handle := { s.handle with kv := setValue s.handle.kv .hash (.off off) } } off with
      | none =>
        have h0 := lineupDownload_none cfg _ off hl
        simp only [hl, OpenRes.err.injEq] at h
        subst h
        exact h0
      | some s2 =>
        simp only [hl] at h
        exact ih _ s2 s' h
    · rw [if_neg hoff] at h
      simp at h

/-- The sum of the pool capacity and the schedule-log length is conserved
by the OpenFile prefetch loop: every scheduled fetch consumed exactly one
pool block. -/
theorem openFileLoop_pool_sched (cfg : Config) :
    ∀ r off s, (openFileLoop cfg r off s).st.pool + (openFileLoop cfg r off s).st.sched.length
      = s.pool + s.sched.length := by
  intro r
  induction r with
  | zero => intro off s; simp [openFileLoop, OpenRes.st]
  | succ r ih =>
    intro off s
    simp only [openFileLoop]
    by_cases hoff : off < s.handle.size
    · rw [if_pos hoff]
      cases hl : lineupDownload cfg
          { s with handle := { s.handle with kv := setValue s.handle.kv .hash (.off off) } } off with
      | none => simp [OpenRes.st]
      | some s2 =>
        simp only [hl]
        obtain ⟨p, hp, hs2⟩ := lineupDownload_some cfg _ off s2 hl
        have hrec := ih (off + cfg.blockSize) s2
        rw [hrec, hs2]
        simp only [List.length_append, List.length_cons, List.length_nil]
        simp only [Sys.pool] at hp
        omega
    · rw [if_neg hoff]
      simp [OpenRes.st]

/-- GetValue misses a key no entry carries. -/
theorem getValue_eq_none (m : List (HKey × HVal)) (k : HKey)
    (h : ∀ e ∈ m, e.1 ≠ k) : getValue m k = none := by
  induction m with
  | nil => rfl
  | cons e rest ih =>
    have he : e.1 ≠ k := h e (List.mem_cons_self e rest)
    simp only [getValue]
    rw [if_neg he]
    exact ih (fun e' he' => h e' (List.mem_cons_of_mem _ he'))

/-- Every entry of a SetValue result is an old entry or the new binding. -/
theorem mem_setValue (m : List (HKey × HVal)) (k : HKey) (v : HVal) (e : HKey × HVal)
    (he : e ∈ setValue m k v) : e ∈ m ∨ e = (k, v) := by
  induction m with
  | nil =>
    simp only [setValue, List.mem_singleton] at he
    right
    exact he
  | cons e0 rest ih =>
    by_cases h0 : e0.1 = k
    · simp only [setValue, if_pos h0] at he
      rcases List.mem_cons.mp he with h | h
      · right; exact h
      · left; exact List.mem_cons_of_mem _ h
    · simp only [setValue, if_neg h0] at he
      rcases List.mem_cons.mp he with h | h
      · left; exact h ▸ List.mem_cons_self _ _
      · rcases ih h with h' | h'
        · left; exact List.mem_cons_of_mem _ h'
        · right; exact h'

/-- SetValue of an absent key appends the binding. -/
theorem setValue_of_absent (m : List (HKey × HVal)) (k : HKey) (v : HVal)
    (hnone : getValue m k = none) : setValue m k v = m ++ [(k, v)] := by
  induction m with
  | nil => simp [setValue]
  | cons e rest ih =>
    have he : e.1 ≠ k := by
      intro hh
      simp [getValue, hh] at hnone
    simp only [setValue, if_neg he, List.cons_append, List.cons.injEq, true_and]
    exact ih (by simpa [getValue, he] using hnone)

/-- The non-hash entries distribute over append. -/
theorem blockEntries_append (m1 m2 : List (HKey × HVal)) :
    blockEntries (m1 ++ m2) = blockEntries m1 ++ blockEntries m2 := by
  simp [blockEntries, List.filter_append]

/-- Rebinding the hash key does not change the non-hash entries. -/
theorem blockEntries_setValue_hash (m : List (HKey × HVal)) (v : HVal) :
    blockEntries (setValue m .hash v) = blockEntries m := by
  induction m with
  | nil => simp [setValue, blockEntries]
  | cons e rest ih =>
    by_cases h : e.1 = HKey.hash
    · simp [setValue, h, blockEntries, List.filter]
    · simp only [setValue, if_neg h]
      simp only [blockEntries, List.filter] at ih ⊢
      rw [ih]

/-- Along the OpenFile prefetch loop started at block index c, where all
non-hash entries have block indices below c, the count of non-hash
entries grows exactly with the schedule log: every scheduled block is
stored on the handle. -/
theorem openFileLoop_blockEntries (cfg : Config) (hbs : 0 < cfg.blockSize) :
    ∀ r c s, (∀ e ∈ s.handle.kv, e.1 ≠ HKey.hash → ∃ j, e.1 = HKey.idx j ∧ j < c) →
      (blockEntries (openFileLoop cfg r (c * cfg.blockSize) s).st.handle.kv).length + s.sched.length
        = (blockEntries s.handle.kv).length
          + (openFileLoop cfg r (c * cfg.blockSize) s).st.sched.length := by
  intro r
  induction r with
  | zero =>
    intro c s hinv
    simp [openFileLoop, OpenRes.st, blockEntries_setValue_hash]
  | succ r ih =>
    intro c s hinv
    have hidxc : ∀ e ∈ s.handle.kv, e.1 ≠ HKey.idx c := by
      intro e he hc
      by_cases hh : e.1 = HKey.hash
      · rw [hh] at hc
        exact HKey.noConfusion hc
      · obtain ⟨j, hj, hjc⟩ := hinv e he hh
        rw [hj] at hc
        have : j = c := HKey.idx.inj hc
        omega
    simp only [openFileLoop]
    by_cases hoff : c * cfg.blockSize < s.handle.size
    · rw [if_pos hoff]
      cases hl : lineupDownload cfg
          { s with handle := { s.handle with
            kv := setValue s.handle.kv .hash (.off (c * cfg.blockSize)) } } (c * cfg.blockSize) with
      | none =>
        simp only [hl, OpenRes.st]
        simp [blockEntries_setValue_hash]
      | some s2 =>
        simp only [hl]
        obtain ⟨p, hp, hs2⟩ := lineupDownload_some cfg _ _ s2 hl
        have hdivc : c * cfg.blockSize / cfg.blockSize = c := Nat.mul_div_cancel c hbs
        have hnone1 : getValue (setValue s.handle.kv HKey.hash
            (HVal.off (c * cfg.blockSize))) (HKey.idx c) = none := by
          rw [getValue_setValue_ne _ _ _ _ (fun hh => HKey.noConfusion hh)]
          exact getValue_eq_none _ _ hidxc
        have hkv2 : s2.handle.kv = setValue s.handle.kv HKey.hash (HVal.off (c * cfg.blockSize))
            ++ [(HKey.idx c, HVal.item ⟨mkPoolBlock cfg.blockSize (c * cfg.blockSize)⟩)] := by
          rw [hs2]
          simp only []
          rw [hdivc]
          exact setValue_of_absent _ _ _ hnone1
        have hlen2 : (blockEntries s2.handle.kv).length = (blockEntries s.handle.kv).length + 1 := by
          rw [hkv2, blockEntries_append, blockEntries_setValue_hash]
          simp [blockEntries, List.filter]
        have hsched2 : s2.sched.length = s.sched.length + 1 := by
          rw [hs2]
          simp
        have hinv2 : ∀ e ∈ s2.handle.kv, e.1 ≠ HKey.hash → ∃ j, e.1 = HKey.idx j ∧ j < c + 1 := by
          intro e he hne
          rw [hkv2] at he
          rcases List.mem_append.mp he with hmem | hmem
          · rcases mem_setValue _ _ _ _ hmem with hmem' | hmem'
            · obtain ⟨j, hj, hjc⟩ := hinv e hmem' hne
              exact ⟨j, hj, by omega⟩
            · rw [hmem'] at hne
              exact absurd rfl hne
          · rw [List.mem_singleton.mp hmem]
            exact ⟨c, rfl, by omega⟩
        have hmul : c * cfg.blockSize + cfg.blockSize = (c + 1) * cfg.blockSize := by ring
        rw [hmul]
        have hrec := ih (c + 1) s2 hinv2
        omega
    · rw [if_neg hoff]
      simp [OpenRes.st, blockEntries_setValue_hash]

/-- Claim C10: when the prefetch loop of OpenFile fails after k greater
than 0 blocks were already scheduled, the error is surfaced (with the
handle discarded) while none of the k blocks is released: the release
log is empty, the pool is fully drained (the k = pool blocks obtained
stay checked out), and all k blocks are still stored on the discarded
handle's map. -/
theorem claim_C10_no_rollback (cfg : Config) (sz pool : Nat) (s' : Sys)
    (hbs : 0 < cfg.blockSize) (h : openFile cfg sz pool = .err s') (hk : s'.sched ≠ []) :
    s'.released = [] ∧ s'.pool = 0 ∧ s'.sched.length = pool ∧
      (blockEntries s'.handle.kv).length = s'.sched.length := by
  unfold openFile at h
  have hst : (openFileLoop cfg cfg.prefetch 0 (initSys sz pool)).st = s' := by
    rw [h]
    rfl
  have hrel := openFileLoop_released cfg cfg.prefetch 0 (initSys sz pool)
  rw [hst] at hrel
  have hpool0 : s'.pool = 0 := openFileLoop_err_pool cfg cfg.prefetch 0 (initSys sz pool) s' h
  have hps := openFileLoop_pool_sched cfg cfg.prefetch 0 (initSys sz pool)
  rw [hst] at hps
  have hbe := openFileLoop_blockEntries cfg hbs cfg.prefetch 0 (initSys sz pool)
    (by intro e he hne; simp [initSys] at he)
  rw [Nat.zero_mul, hst] at hbe
  refine ⟨?_, hpool0, ?_, ?_⟩
  · simpa [initSys] using hrel
  · simp [initSys] at hps
    omega
  · simp only [initSys, show blockEntries ([] : List (HKey × HVal)) = [] from rfl,
      List.length_nil] at hbe
    omega

/-- Witness for C10: opening a 16-byte file with 4-byte blocks, prefetch
4 and only 2 pool blocks fails after scheduling 2 fetches; nothing is
released, the pool is drained, and both blocks sit on the discarded
handle. -/
theorem claim_C10_witness :
    (OpenRes.st (openFile cfgB 16 2)).released = [] ∧
    (OpenRes.st (openFile cfgB 16 2)).pool = 0 ∧
    (OpenRes.st (openFile cfgB 16 2)).sched.length = 2 ∧
    (blockEntries (OpenRes.st (openFile cfgB 16 2)).handle.kv).length
      = (OpenRes.st (openFile cfgB 16 2)).sched.length :=
  claim_C10_no_rollback cfgB 16 2 (OpenRes.st (openFile cfgB 16 2))
    (by decide) (by decide) (by decide)

/-- RemoveValue does not change the binding of any other key. -/
theorem getValue_removeValue_ne (m : List (HKey × HVal)) (k k' : HKey)
    (h : k' ≠ k) : getValue (removeValue m k) k' = getValue m k' := by
  induction m with
  | nil => rfl
  | cons e rest ih =>
    by_cases he : e.1 = k
    · have hd : decide (e.1 ≠ k) = false := by simp [he]
      have he' : ¬ (e.1 = k') := by rw [he]; exact fun hh => h hh.symm
      simp only [removeValue, List.filter, hd] at ih ⊢
      rw [ih]
      simp [getValue, he']
    · have hd : decide (e.1 ≠ k) = true := by simp [he]
      simp only [removeValue, List.filter, hd] at ih ⊢
      simp only [getValue]
      by_cases he' : e.1 = k'
      · rw [if_pos he', if_pos he']
      · rw [if_neg he', if_neg he']
        exact ih

/-- Rebinding a block-index key does not change the hash binding. -/
theorem hashVal_setValue_idx (m : List (HKey × HVal)) (j : Nat) (v : HVal) :
    hashVal (setValue m (.idx j) v) = hashVal m := by
  unfold hashVal
  rw [getValue_setValue_ne _ _ _ _ (fun hh => HKey.noConfusion hh)]

/-- Setting the hash key determines the hash binding. -/
theorem hashVal_setValue_hash (m : List (HKey × HVal)) (l : Nat) :
    hashVal (setValue m .hash (.off l)) = some l := by
  unfold hashVal
  rw [getValue_setValue_self]

/-- Removing a block-index key does not change the hash binding. -/
theorem hashVal_removeValue_idx (m : List (HKey × HVal)) (j : Nat) :
    hashVal (removeValue m (.idx j)) = hashVal m := by
  unfold hashVal
  rw [getValue_removeValue_ne _ _ _ (fun hh => HKey.noConfusion hh)]

/-- lineupDownload stores under a block-index key only, so it preserves
the hash binding; it also appends exactly one schedule entry. -/
theorem lineupDownload_hash_sched (cfg : Config) (s : Sys) (off : Nat) (s2 : Sys)
    (h : lineupDownload cfg s off = some s2) :
    hashVal s2.handle.kv = hashVal s.handle.kv ∧
      s2.sched.length = s.sched.length + 1 := by
  obtain ⟨p, hp, hs2⟩ := lineupDownload_some cfg s off s2 h
  subst hs2
  constructor
  · exact hashVal_setValue_idx _ _ _
  · simp

/-- The token dispatch of getBlock leaves the hash binding unchanged or
advances it by exactly one blockSize (first-reader path with a
successful lineup). -/
theorem afterToken_hash (cfg : Config) (s : Sys) (index : Nat) (b : Block) (t : Nat) :
    HashMono cfg s.handle.kv (afterToken cfg s index b t).1.handle.kv := by
  by_cases h1 : t = 1
  · subst h1
    simp only [afterToken, if_pos rfl]
    cases hv : getValue s.handle.kv HKey.hash with
    | none => left; rfl
    | some v =>
      cases v with
      | item w => left; rfl
      | off l =>
        by_cases h2 : l < s.handle.size
        · simp only [if_pos h2]
          cases hl : lineupDownload cfg s l with
          | none => left; rfl
          | some s2 =>
            right
            refine ⟨l, ?_, ?_⟩
            · unfold hashVal
              rw [hv]
            · exact hashVal_setValue_hash _ _
        · simp only [if_neg h2]
          left; rfl
  · by_cases h2 : t = 2
    · subst h2
      left
      simp only [afterToken, if_neg h1, if_pos rfl]
      by_cases h3 : 3 ≤ b.id
      · simp only [if_pos h3]
        cases hv : getValue (setValue s.handle.kv (HKey.idx index)
            (HVal.item ⟨{ b with stateTokens := [], closed := true }⟩)) (HKey.idx (b.id - 3)) with
        | none => exact hashVal_setValue_idx _ _ _
        | some v =>
          cases v with
          | off l => exact hashVal_setValue_idx _ _ _
          | item dw =>
            exact Eq.trans
              (hashVal_removeValue_idx (setValue s.handle.kv (HKey.idx index)
                (HVal.item ⟨{ b with stateTokens := [], closed := true }⟩)) (b.id - 3))
              (hashVal_setValue_idx s.handle.kv index _)
      · simp only [if_neg h3]
        exact hashVal_setValue_idx _ _ _
    · simp only [afterToken, if_neg h1, if_neg h2]
      left; rfl

/-- Hash monotonicity composes with a hash-preserving first step. -/
theorem HashMono.trans_eq (cfg : Config) {m0 m1 m2 : List (HKey × HVal)}
    (h01 : hashVal m1 = hashVal m0) (h12 : HashMono cfg m1 m2) : HashMono cfg m0 m2 := by
  rcases h12 with h | ⟨l, hl1, hl2⟩
  · left
    rw [h, h01]
  · right
    refine ⟨l, ?_, hl2⟩
    rw [← h01]
    exact hl1

/-- The post-lookup part of getBlock leaves the hash binding unchanged or
advances it by exactly one blockSize. -/
theorem getBlockStep2_hash (cfg : Config) (s : Sys) (index : Nat) (v : HVal) :
    HashMono cfg s.handle.kv (getBlockStep2 cfg s index v).1.handle.kv := by
  rcases v with o | w
  · left; rfl
  · obtain ⟨⟨bid, bdata, btok, bclosed⟩⟩ := w
    cases btok with
    | nil =>
      cases bclosed with
      | true => exact afterToken_hash cfg s index ⟨bid, bdata, [], true⟩ 0
      | false => left; rfl
    | cons t rest =>
      have hw : hashVal (setValue s.handle.kv (HKey.idx index)
          (HVal.item ⟨⟨bid, bdata, rest, bclosed⟩⟩)) = hashVal s.handle.kv :=
        hashVal_setValue_idx _ _ _
      have hat := afterToken_hash cfg { s with handle := { s.handle with
          kv := setValue s.handle.kv (HKey.idx index) (HVal.item ⟨⟨bid, bdata, rest, bclosed⟩⟩) } }
        index ⟨bid, bdata, rest, bclosed⟩ t
      exact HashMono.trans_eq cfg hw hat

/-- Claim C5, first conjunct of the amendment: across any getBlock call
the hash binding never decreases: it is either unchanged or advanced by
exactly one blockSize. -/
theorem getBlock_hash (cfg : Config) (s : Sys) (off : Nat) :
    HashMono cfg s.handle.kv (getBlock cfg s off).1.handle.kv := by
  by_cases hsz : s.handle.size ≤ off
  · have hred : getBlock cfg s off = (s, .eof) := by
      simp only [getBlock, if_pos hsz]
    rw [hred]
    left; rfl
  · cases hv : getValue s.handle.kv (HKey.idx (off / cfg.blockSize)) with
    | some v =>
      have hred : getBlock cfg s off = getBlockStep2 cfg s (off / cfg.blockSize) v := by
        simp only [getBlock, hsz, if_false, hv]
      rw [hred]
      exact getBlockStep2_hash cfg s _ v
    | none =>
      cases hl : lineupDownload cfg s off with
      | none =>
        have hred : getBlock cfg s off = (s, .schedFail) := by
          simp only [getBlock, hsz, if_false, hv, hl]
        rw [hred]
        left; rfl
      | some s2 =>
        obtain ⟨hh, _⟩ := lineupDownload_hash_sched cfg s off s2 hl
        cases hv2 : getValue s2.handle.kv (HKey.idx (off / cfg.blockSize)) with
        | some v2 =>
          have hred : getBlock cfg s off = getBlockStep2 cfg s2 (off / cfg.blockSize) v2 := by
            simp only [getBlock, hsz, if_false, hv, hl, hv2]
          rw [hred]
          exact HashMono.trans_eq cfg hh (getBlockStep2_hash cfg s2 _ v2)
        | none =>
          have hred : getBlock cfg s off = (s2, .notFound) := by
            simp only [getBlock, hsz, if_false, hv, hl, hv2]
          rw [hred]
          left
          exact hh

/-- Claim C5, hole-filling conjunct of the amendment: when getBlock takes
the hole-filling path (index absent, not EOF, pool available) it queues a
new fetch yet leaves the hash binding unchanged. -/
theorem getBlock_hole_no_hash_bump (cfg : Config) (s : Sys) (off : Nat)
    (hnone : getValue s.handle.kv (HKey.idx (off / cfg.blockSize)) = none)
    (hoff : off < s.handle.size) (hpool : 0 < s.pool) :
    (getBlock cfg s off).1.sched.length = s.sched.length + 1 ∧
      hashVal (getBlock cfg s off).1.handle.kv = hashVal s.handle.kv := by
  have hsz : ¬ (s.handle.size ≤ off) := not_le.mpr hoff
  cases hp : s.pool with
  | zero => omega
  | succ p =>
    have hl : lineupDownload cfg s off = some { s with
        pool := p,
        handle := { s.handle with kv := setValue s.handle.kv (.idx (off / cfg.blockSize)) (.item ⟨mkPoolBlock cfg.blockSize off⟩) },
        sched := s.sched ++ [(decide (off = 0), ⟨mkPoolBlock cfg.blockSize off⟩)] } := by
      simp [lineupDownload, poolGet, hp, mkPoolBlock]
    simp only [getBlock, hsz, if_false, hnone, hl, getValue_setValue_self, getBlockStep2,
      mkPoolBlock]
    constructor
    · simp
    · exact hashVal_setValue_idx _ _ _

/-- The schedule log never shrinks along the OpenFile prefetch loop. -/
theorem openFileLoop_sched_mono (cfg : Config) :
    ∀ r off s, s.sched.length ≤ (openFileLoop cfg r off s).st.sched.length := by
  intro r
  induction r with
  | zero => intro off s; simp [openFileLoop, OpenRes.st]
  | succ r ih =>
    intro off s
    simp only [openFileLoop]
    by_cases hoff : off < s.handle.size
    · rw [if_pos hoff]
      cases hl : lineupDownload cfg
          { s with handle := { s.handle with kv := setValue s.handle.kv .hash (.off off) } } off with
      | none => simp [OpenRes.st]
      | some s2 =>
        simp only [hl]
        obtain ⟨hh, hlen⟩ := lineupDownload_hash_sched cfg _ off s2 hl
        have := ih (off + cfg.blockSize) s2
        simp only [Sys.sched] at hlen
        omega
    · rw [if_neg hoff]
      simp [OpenRes.st]

/-- Along the OpenFile prefetch loop the hash binding always equals the
loop offset plus blockSize for every fetch queued so far: each queued
block advances it by exactly blockSize. -/
theorem openFileLoop_hash (cfg : Config) :
    ∀ r off s, hashVal (openFileLoop cfg r off s).st.handle.kv
      = some (off + ((openFileLoop cfg r off s).st.sched.length - s.sched.length) * cfg.blockSize) := by
  intro r
  induction r with
  | zero =>
    intro off s
    simp [openFileLoop, OpenRes.st, hashVal_setValue_hash]
  | succ r ih =>
    intro off s
    simp only [openFileLoop]
    by_cases hoff : off < s.handle.size
    · rw [if_pos hoff]
      cases hl : lineupDownload cfg
          { s with handle := { s.handle with kv := setValue s.handle.kv .hash (.off off) } } off with
      | none =>
        simp [OpenRes.st, hashVal_setValue_hash]
      | some s2 =>
        simp only [hl]
        obtain ⟨hh, hlen⟩ := lineupDownload_hash_sched cfg _ off s2 hl
        simp only [Sys.sched] at hlen
        have hmono := openFileLoop_sched_mono cfg r (off + cfg.blockSize) s2
        have hrec := ih (off + cfg.blockSize) s2
        rw [hrec]
        have hd : (openFileLoop cfg r (off + cfg.blockSize) s2).st.sched.length - s.sched.length
            = ((openFileLoop cfg r (off + cfg.blockSize) s2).st.sched.length
                - s2.sched.length) + 1 := by omega
        rw [hd]
        congr 1
        ring
    · rw [if_neg hoff]
      simp [OpenRes.st, hashVal_setValue_hash]

/-- A hash binding value is stored as an off value under the hash key. -/
theorem hashVal_eq_some (m : List (HKey × HVal)) (l : Nat)
    (h : hashVal m = some l) : getValue m HKey.hash = some (.off l) := by
  unfold hashVal at h
  cases hv : getValue m HKey.hash with
  | none =>
    simp only [hv] at h
    exact Option.noConfusion h
  | some v =>
    cases v with
    | off v' =>
      simp only [hv, Option.some.injEq] at h
      rw [h]
    | item w =>
      simp only [hv] at h
      exact Option.noConfusion h

/-- The first-reader branch of getBlock (token 1), entered with a hash
binding below the file size and an available pool block, queues exactly
one new fetch and advances the hash binding by exactly one blockSize. -/
theorem afterToken_first_reader (cfg : Config) (s : Sys) (index : Nat) (b : Block) (l : Nat)
    (hgv : getValue s.handle.kv HKey.hash = some (.off l))
    (hls : l < s.handle.size)
    (hpool : 0 < s.pool) :
    hashVal (afterToken cfg s index b 1).1.handle.kv = some (l + cfg.blockSize) ∧
      (afterToken cfg s index b 1).1.sched.length = s.sched.length + 1 := by
  simp only [afterToken, if_pos rfl, hgv]
  rw [if_pos hls]
  cases hp : s.pool with
  | zero => omega
  | succ p =>
    have hl : lineupDownload cfg s l = some { s with
        pool := p,
        handle := { s.handle with kv := setValue s.handle.kv (.idx (l / cfg.blockSize)) (.item ⟨mkPoolBlock cfg.blockSize l⟩) },
        sched := s.sched ++ [(decide (l = 0), ⟨mkPoolBlock cfg.blockSize l⟩)] } := by
      simp [lineupDownload, poolGet, hp, mkPoolBlock]
    simp only [hl]
    constructor
    · exact hashVal_setValue_hash _ _
    · simp

/-- Claim C5, first-reader conjunct of the amendment: whenever getBlock
hands a cached block to its first reader (next buffered token 1) while
the hash binding is below the file size and the pool has a free block,
it queues exactly one new fetch and the hash binding advances by exactly
one blockSize. -/
theorem getBlock_first_reader_bump (cfg : Config) (s : Sys) (off : Nat) (w : WorkItem) (l : Nat)
    (hfound : getValue s.handle.kv (HKey.idx (off / cfg.blockSize)) = some (.item w))
    (htok : w.block.stateTokens.head? = some 1)
    (hoff : off < s.handle.size)
    (hhash : hashVal s.handle.kv = some l)
    (hls : l < s.handle.size)
    (hpool : 0 < s.pool) :
    hashVal (getBlock cfg s off).1.handle.kv = some (l + cfg.blockSize) ∧
      (getBlock cfg s off).1.sched.length = s.sched.length + 1 := by
  obtain ⟨rest, hrest⟩ : ∃ rest, w.block.stateTokens = 1 :: rest := by
    cases h : w.block.stateTokens with
    | nil => rw [h] at htok; simp at htok
    | cons t r =>
      rw [h] at htok
      simp only [List.head?_cons, Option.some.injEq] at htok
      exact ⟨r, by rw [htok]⟩
  have hsz : ¬ (s.handle.size ≤ off) := not_le.mpr hoff
  simp only [getBlock, hsz, if_false, hfound, getBlockStep2, hrest]
  refine afterToken_first_reader cfg _ _ _ l ?_ ?_ ?_
  · show getValue (setValue s.handle.kv (HKey.idx (off / cfg.blockSize)) (HVal.item ⟨{ w.block with stateTokens := rest }⟩)) HKey.hash = some (.off l)
    rw [getValue_setValue_ne _ _ _ _ (fun hh => HKey.noConfusion hh)]
    exact hashVal_eq_some _ _ hhash
  · exact hls
  · exact hpool

/-- Claim C5 (amended): the hash binding never decreases and moves only
in steps of exactly one blockSize: (1) any getBlock call leaves it
unchanged or advances it by exactly blockSize; (2) each block queued by
the first-reader path of getBlock advances it by exactly blockSize;
(3) the hole-filling path of getBlock queues a new fetch while leaving
the hash binding unchanged — the amendment forced by the counterexample;
(4) across OpenFile (success or failure) the hash binding ends at
blockSize times the number of fetches queued, i.e. it advanced by
exactly blockSize per queued block starting from 0. -/
theorem claim_C5_amended_hash_behavior :
    (∀ cfg s off, HashMono cfg s.handle.kv (getBlock cfg s off).1.handle.kv) ∧
    (∀ cfg s off w l, getValue s.handle.kv (HKey.idx (off / cfg.blockSize)) = some (.item w) →
      w.block.stateTokens.head? = some 1 → off < s.handle.size →
      hashVal s.handle.kv = some l → l < s.handle.size → 0 < s.pool →
      hashVal (getBlock cfg s off).1.handle.kv = some (l + cfg.blockSize) ∧
        (getBlock cfg s off).1.sched.length = s.sched.length + 1) ∧
    (∀ cfg s off, getValue s.handle.kv (HKey.idx (off / cfg.blockSize)) = none →
      off < s.handle.size → 0 < s.pool →
      (getBlock cfg s off).1.sched.length = s.sched.length + 1 ∧
        hashVal (getBlock cfg s off).1.handle.kv = hashVal s.handle.kv) ∧
    (∀ cfg sz pool, hashVal (OpenRes.st (openFile cfg sz pool)).handle.kv
      = some ((OpenRes.st (openFile cfg sz pool)).sched.length * cfg.blockSize)) := by
  refine ⟨getBlock_hash, getBlock_first_reader_bump, getBlock_hole_no_hash_bump, ?_⟩
  intro cfg sz pool
  have h := openFileLoop_hash cfg cfg.prefetch 0 (initSys sz pool)
  simpa [openFile, initSys] using h

/-- Counterexample to C5 as stated: in stC5 a getBlock at offset 0 takes
the hole-filling path and queues a new block fetch, yet the hash binding
stays at 8 instead of increasing by the (nonzero) blockSize. -/
theorem claim_C5_counterexample :
    (getBlock cfgA stC5 0).1.sched.length = stC5.sched.length + 1 ∧
    hashVal stC5.handle.kv = some 8 ∧
    hashVal (getBlock cfgA stC5 0).1.handle.kv = some 8 ∧
    cfgA.blockSize = 4 ∧
    ¬ hashVal (getBlock cfgA stC5 0).1.handle.kv = some (8 + cfgA.blockSize) := by
  refine ⟨by decide, by decide, by decide, by decide, by decide⟩

/-- Witness for C5 (amended): the first-reader conjunct applied to the
concrete state stC5b (the bump from 4 to 8 with one queued fetch), the
hole-filling conjunct applied to the concrete state stC5, and the
OpenFile conjunct applied to a concrete open. -/
theorem claim_C5_witness :
    (hashVal (getBlock cfgA stC5b 0).1.handle.kv = some (4 + cfgA.blockSize) ∧
      (getBlock cfgA stC5b 0).1.sched.length = stC5b.sched.length + 1) ∧
    ((getBlock cfgA stC5 0).1.sched.length = stC5.sched.length + 1 ∧
      hashVal (getBlock cfgA stC5 0).1.handle.kv = hashVal stC5.handle.kv) ∧
    hashVal (OpenRes.st (openFile cfgB 10 10)).handle.kv
      = some ((OpenRes.st (openFile cfgB 10 10)).sched.length * cfgB.blockSize) :=
  ⟨claim_C5_amended_hash_behavior.2.1 cfgA stC5b 0
      ⟨{ id := 0, data := [0, 1, 2, 3], stateTokens := [1, 2], closed := false }⟩ 4
      (by decide) (by decide) (by decide) (by decide) (by decide) (by decide),
   claim_C5_amended_hash_behavior.2.2.1 cfgA stC5 0 (by decide) (by decide) (by decide),
   claim_C5_amended_hash_behavior.2.2.2 cfgB 10 10⟩

end BlockCacheProof
